import Mathlib

set_option maxHeartbeats 1000000

/- Verification of the Snitch-cluster FlashAttention-2 and LayerNorm kernels
(`flashattention_2_layer` and the `layernorm.h` kernels).

Modelling conventions used throughout this development:
* Flat memory buffers are total functions `ℕ → F` over an arbitrary linear
  ordered field `F`, indexed in elements (the byte offsets of the source are
  uniformly the element offsets times the element size, so the element size
  divides out of every address computation).
* Floating-point arithmetic is modelled exactly, over `F`; math-library
  routines (`expf`, `sqrtf`) are abstract parameters `E`/`sqrtF : F → F`.
  Theorems either hold for every such function with the relevant algebraic
  properties, or are instantiated at `F = ℝ` with `Real.exp`/`Real.sqrt`.
* The `-INFINITY` initialization of the running maxima is modelled as
  `⊥ : WithBot F`.
* The per-core parallel loops write disjoint index sets, separated by the
  cluster barrier; their parallel composition is modelled as a sequential
  fold over the core indices, whose final state is the same function. -/

/-- Element precisions of the runtime's `precision_t` enum (the kernels only
compare the configured dtype against the `FP32` and `FP16` constructors). -/
inductive Precision where
  | FP64
  | FP32
  | FP16
  | FP8
deriving DecidableEq

/-- Modelled from the spec: the strided 2D transfer primitive of section 6
(`snrt_dma_start_2d` followed by `snrt_dma_wait_all` in the source). It copies
`reps` chunks of `chunk` elements each from `src` (starting at `srcBase`,
advancing by `srcStride` between chunks) into `dst` (starting at `dstBase`,
advancing by `dstStride`). This is the functional description of the copy for
the non-overlapping destinations (`chunk ≤ dstStride`) used at every call site
of the two kernels. -/
def dmaStart2d {F : Type} (dst src : ℕ → F)
    (dstBase srcBase chunk dstStride srcStride reps : ℕ) : ℕ → F :=
  fun a =>
    if dstBase ≤ a ∧ (a - dstBase) / dstStride < reps ∧
        (a - dstBase) % dstStride < chunk ∧ 0 < dstStride then
      src (srcBase + ((a - dstBase) / dstStride) * srcStride + (a - dstBase) % dstStride)
    else dst a

/-- Modelled from the spec: the dense GEMM collaborator contract of section 6
(`sc_st_gemm` in the source, whose implementation is outside the two kernel
files): `C = alpha * op(A) * op(B) + beta * C` on row-major flat buffers with
leading dimensions `lda`, `ldb`, `ldc` and independent transpose flags; the
`baseline` mode selector is numerically irrelevant by contract. Entries
outside the `M x N` result region are untouched. -/
def gemmModel {F : Type} [LinearOrderedField F] (transa transb : Bool)
    (M N K : ℕ) (alpha : F) (A : ℕ → F) (lda : ℕ) (B : ℕ → F) (ldb : ℕ)
    (beta : F) (C : ℕ → F) (ldc : ℕ) : ℕ → F :=
  fun a =>
    let i := a / ldc
    let j := a % ldc
    if i < M ∧ j < N ∧ 0 < ldc then
      alpha * (∑ k ∈ Finset.range K,
        (if transa then A (k * lda + i) else A (i * lda + k)) *
        (if transb then B (j * ldb + k) else B (k * ldb + j))) + beta * C a
    else C a

/-- Modelled from the spec: the transpose collaborator contract of section 6
(`transpose_kernel` in the source): `dst = src` transposed, where `src` is
`rows x cols` row-major and `dst` is `cols x rows` row-major; entries outside
the result region are untouched. -/
def transposeModel {F : Type} (src dst : ℕ → F) (rows cols : ℕ) : ℕ → F :=
  fun a =>
    if a / rows < cols ∧ 0 < rows then src ((a % rows) * cols + a / rows) else dst a

/-- The IEEE extension of the abstract exponential to the running maxima:
`expf(-inf) = 0` (the `⊥` case), and on finite arguments it is `E`. -/
def expW {F : Type} [LinearOrderedField F] (E : F → F) : WithBot F → F
  | ⊥ => 0
  | (x : F) => E x

/-- Subtraction of running maxima in `WithBot F`. The kernel only ever
subtracts a finite value (the freshly updated maximum, finite when `B_c > 0`)
from the previous maximum, so only the first and last cases are reachable:
`⊥ - ↑y = ⊥` models `expf(-inf - y) = 0` for the first column tile. The
unreachable case of a `⊥` subtrahend is mapped to `⊥`. -/
def wsub {F : Type} [LinearOrderedField F] : WithBot F → WithBot F → WithBot F
  | ⊥, _ => ⊥
  | (_ : F), ⊥ => ⊥
  | (x : F), (y : F) => ((x - y : F) : WithBot F)

@[simp]
theorem expW_bot {F : Type} [LinearOrderedField F] (E : F → F) : expW E ⊥ = 0 := rfl

@[simp]
theorem expW_coe {F : Type} [LinearOrderedField F] (E : F → F) (x : F) :
    expW E (x : WithBot F) = E x := rfl

@[simp]
theorem wsub_bot_left {F : Type} [LinearOrderedField F] (y : WithBot F) :
    wsub ⊥ y = ⊥ := rfl

@[simp]
theorem wsub_coe_coe {F : Type} [LinearOrderedField F] (x y : F) :
    wsub (x : WithBot F) (y : WithBot F) = ((x - y : F) : WithBot F) := rfl

/-- The per-row-block running state of `flashattention_2_layer`: the statistics
vectors `m_i`, `m_i_prev` (in `WithBot F`, with `⊥` for the `-INFINITY`
initialization), `l_i`, and the flat `B_r x d` row-major output accumulator
tile `O_fa`. -/
structure FAState (F : Type) where
  m : ℕ → WithBot F
  mPrev : ℕ → WithBot F
  l : ℕ → F
  O : ℕ → F

/-- The `Q` row-block tile in TCDM after the DMA copy of outer iteration `t_r`
(source lines 106-118: a contiguous `(B_r, d)` copy from `Q_l3 + t_r*B_r*d`).
The destination scratch contents, never read back by the kernel, are 0. -/
def faQ_fa {F : Type} [LinearOrderedField F] (B_r d t_r : ℕ) (Q_l3 : ℕ → F) : ℕ → F :=
  dmaStart2d (fun _ => 0) Q_l3 0 (t_r * B_r * d) d d d B_r

/-- The `K` column-block tile after the DMA copy of inner iteration `t_c`
(source lines 149-157: a contiguous `(B_c, d)` copy from `K_l3 + t_c*B_c*d`). -/
def faK_fa {F : Type} [LinearOrderedField F] (B_c d t_c : ℕ) (K_l3 : ℕ → F) : ℕ → F :=
  dmaStart2d (fun _ => 0) K_l3 0 (t_c * B_c * d) d d d B_c

/-- The `V` row-block tile after the DMA copy of inner iteration `t_c`
(source lines 159-165). -/
def faV_fa {F : Type} [LinearOrderedField F] (B_c d t_c : ℕ) (V_l3 : ℕ → F) : ℕ → F :=
  dmaStart2d (fun _ => 0) V_l3 0 (t_c * B_c * d) d d d B_c

/-- The score tile `S_fa = Q_fa * K_fa^T` of shape `(B_r, B_c)` computed by the
first GEMM of the inner loop (source lines 179-180, with `transb = 1`,
`alpha = 1`, `beta = 0`; the scratch `S_fa` output buffer is never read). -/
def faS_fa {F : Type} [LinearOrderedField F] (B_r B_c d t_r t_c : ℕ)
    (Q_l3 K_l3 : ℕ → F) : ℕ → F :=
  gemmModel false true B_r B_c d 1 (faQ_fa B_r d t_r Q_l3) d (faK_fa B_c d t_c K_l3) d
    0 (fun _ => 0) B_c

/-- One iteration of the inner column-tile loop of `flashattention_2_layer`
(source lines 141-270), for row block `t_r` and column tile `t_c`, acting on
the running state. Mirrors the source order:
* `m_i_prev[row] = m_i[row]`, then the row-max fold over the `B_c` columns of
  `S_fa` (lines 187-199; the fold step is literally `if val > m_i then m_i = val`);
* `P_fa = expf(S_fa - m_i[row])` and `row_sum = Σ P_fa` (lines 201-206);
* `shifted_exp = expf(m_i_prev - m_i)`; `l_i = l_i*shifted_exp + row_sum`
  except `l_i = row_sum` on the first column tile (lines 208-214);
* for `t_c != 0` the accumulated `O_fa` row is divided in place by
  `shifted_exp` (lines 216-222);
* the `P * V` GEMM with `beta = 0` on the first column tile and `beta = 1`
  afterwards — the baseline path multiplies by `V_fa` directly, the optimized
  path transposes `V_fa` into `V_t` and invokes the GEMM in `A * B^T` form
  (lines 229-259).
The per-core row loop runs over every row `r < B_r` of the block: the compute
cores partition these rows disjointly and synchronize by barrier, so the
parallel composition equals this per-row description (claim C10 treats the
partitioning itself). -/
def faInnerStep {F : Type} [LinearOrderedField F] (E : F → F) (d B_r B_c : ℕ)
    (Q_l3 K_l3 V_l3 : ℕ → F) (baseline : Bool) (t_r : ℕ)
    (st : FAState F) (t_c : ℕ) : FAState F :=
  let S := faS_fa B_r B_c d t_r t_c Q_l3 K_l3
  let m' : ℕ → WithBot F := fun r =>
    if r < B_r then
      (List.range B_c).foldl
        (fun acc j =>
          let val : WithBot F := ((S (r * B_c + j) : F) : WithBot F)
          if acc < val then val else acc)
        (st.m r)
    else st.m r
  let mPrev' : ℕ → WithBot F := fun r => if r < B_r then st.m r else st.mPrev r
  let P : ℕ → F := fun a => expW E (wsub ((S a : F) : WithBot F) (m' (a / B_c)))
  let rowSum : ℕ → F := fun r => ∑ j ∈ Finset.range B_c, P (r * B_c + j)
  let shifted : ℕ → F := fun r => expW E (wsub (mPrev' r) (m' r))
  let l' : ℕ → F := fun r =>
    if r < B_r then
      if t_c ≠ 0 then st.l r * shifted r + rowSum r else rowSum r
    else st.l r
  let O₁ : ℕ → F := fun a =>
    if a < B_r * d ∧ t_c ≠ 0 then st.O a / shifted (a / d) else st.O a
  let beta : F := if t_c = 0 then 0 else 1
  let Onext : ℕ → F :=
    if baseline then
      gemmModel false false B_r d B_c 1 P B_c (faV_fa B_c d t_c V_l3) d beta O₁ d
    else
      gemmModel false true B_r d B_c 1 P B_c
        (transposeModel (faV_fa B_c d t_c V_l3) (fun _ => 0) B_c d) B_c beta O₁ d
  ⟨m', mPrev', l', Onext⟩

/-- The statistics initialization at the start of each outer row-tile iteration
(source lines 127-133): `m_i = -INFINITY`, `m_i_prev = -INFINITY`, `l_i = 0`.
The `O_fa` scratch tile is uninitialized in the source and modelled as 0; it is
written with `beta = 0` by the first inner iteration before any read. -/
def faInitState (F : Type) [LinearOrderedField F] : FAState F :=
  ⟨fun _ => ⊥, fun _ => ⊥, fun _ => 0, fun _ => 0⟩

/-- The running state after the first `t` iterations of the inner column-tile
loop of row block `t_r`. -/
def faInnerState {F : Type} [LinearOrderedField F] (E : F → F) (d B_r B_c : ℕ)
    (Q_l3 K_l3 V_l3 : ℕ → F) (baseline : Bool) (t_r t : ℕ) : FAState F :=
  (List.range t).foldl (faInnerStep E d B_r B_c Q_l3 K_l3 V_l3 baseline t_r)
    (faInitState F)

/-- The finished `O_fa` row-block tile after the inner loop over all `T_c`
column tiles and the final per-row normalization `O_fa[row] /= l_i[row]`
(source lines 276-282). -/
def faOblock {F : Type} [LinearOrderedField F] (E : F → F) (d B_r B_c T_c : ℕ)
    (Q_l3 K_l3 V_l3 : ℕ → F) (baseline : Bool) (t_r : ℕ) : ℕ → F :=
  let st := faInnerState E d B_r B_c Q_l3 K_l3 V_l3 baseline t_r T_c
  fun a => if a < B_r * d then st.O a / st.l (a / d) else st.O a

/-- The full `flashattention_2_layer` kernel (source lines 43-310): the outer
loop over the `T_r = N / B_r` row blocks of `Q`, each producing a normalized
`(B_r, d)` output block that the data-mover core copies back to
`O_l3 + t_r*B_r*d` (lines 292-303). The result is the final content of the
`O` tensor in main memory. -/
def flashattention_2_layer {F : Type} [LinearOrderedField F] (E : F → F)
    (N d B_r B_c : ℕ) (Q_l3 K_l3 V_l3 O_l3 : ℕ → F) (baseline : Bool) : ℕ → F :=
  let T_r := N / B_r
  let T_c := N / B_c
  (List.range T_r).foldl
    (fun O_mem t_r =>
      dmaStart2d O_mem (faOblock E d B_r B_c T_c Q_l3 K_l3 V_l3 baseline t_r)
        (t_r * B_r * d) 0 d d d B_r)
    O_l3

/-- Entry `(qr, kr)` of `Q * K^T` for the flat row-major `N x d` tensors: the
dot product of row `qr` of `Q` with row `kr` of `K` (no `1/sqrt(d)` scaling,
as in the source). -/
def faScore {F : Type} [LinearOrderedField F] (d : ℕ) (Q K : ℕ → F) (qr kr : ℕ) : F :=
  ∑ k ∈ Finset.range d, Q (qr * d + k) * K (kr * d + k)

/-- Modelled from the spec: the direct, non-tiled reference
`O = softmax(Q K^T) * V` of spec sections 4.1 and 8 (with no `1/sqrt(d)`
scaling of the scores), on flat row-major `N x d` tensors, used as the
comparison point of claim C1. -/
def attentionRef {F : Type} [LinearOrderedField F] (E : F → F) (N d : ℕ)
    (Q K V : ℕ → F) : ℕ → F :=
  fun a =>
    ∑ j ∈ Finset.range N,
      E (faScore d Q K (a / d) j) / (∑ i ∈ Finset.range N, E (faScore d Q K (a / d) i))
        * V (j * d + a % d)

/-- Modelled from the spec: the softmax-weighted sum of `V` rows restricted to
the columns of tiles `0..t` (claim C2 and the spec's rescaling-correctness
property): the prefix softmax over the first `(t+1)*B_c` key rows, applied to
`V`, for query row `qr` and output column `c`. -/
def faPrefixRef {F : Type} [LinearOrderedField F] (E : F → F) (d B_c : ℕ)
    (Q K V : ℕ → F) (qr c t : ℕ) : F :=
  (∑ j ∈ Finset.range ((t + 1) * B_c), E (faScore d Q K qr j) * V (j * d + c)) /
    (∑ j ∈ Finset.range ((t + 1) * B_c), E (faScore d Q K qr j))

/-- Events along one core's control flow through the FlashAttention-2 kernel. -/
inductive FAEvent where
  | barrier
  | dmaTransfer
  | gemmOp
  | softmaxStats
  | transposeOp
deriving DecidableEq

/-- The compute-role branch of one inner column-tile iteration (source lines
174-263): the `S` GEMM, a barrier (line 183), the per-row softmax statistics
update, two barriers (lines 225, 227), then the `P*V` GEMM (preceded by the
`V` transpose on the optimized path) and a final barrier (line 263). -/
def faComputeBranch (baseline : Bool) : List FAEvent :=
  [.gemmOp, .barrier, .softmaxStats, .barrier, .barrier] ++
    (if baseline then [.gemmOp] else [.transposeOp, .gemmOp]) ++ [.barrier]

/-- The non-compute (data-mover) branch of one inner iteration (source lines
264-269): four bare barrier calls. -/
def faDmBranch : List FAEvent := [.barrier, .barrier, .barrier, .barrier]

/-- The event trace of one full inner column-tile iteration for a given role
(source lines 141-270): the barrier at the top of the loop body (line 142),
the K and V DMA transfers on the non-compute role (lines 149-168), the
post-DMA barrier (line 171), then the role-split branch. -/
def faInnerIterTrace (isComputeCore baseline : Bool) : List FAEvent :=
  [.barrier] ++ (if isComputeCore then [] else [.dmaTransfer, .dmaTransfer]) ++
    [.barrier] ++ (if isComputeCore then faComputeBranch baseline else faDmBranch)

/-- Number of cluster hardware-barrier calls in a trace. -/
def barrierCount (t : List FAEvent) : ℕ := t.count .barrier

/-- C4: in every iteration of the FlashAttention-2 inner column-tile loop, the
non-compute (data-mover) role executes exactly the same number of cluster
hardware-barrier calls as each compute role — four inside each role-split
branch, plus the two shared barriers outside the branches (six in total) — on
both the baseline and the optimized path, so the rendezvous count of the two
roles agrees in every iteration. -/
theorem C4_fa_barrier_parity (baseline : Bool) :
    barrierCount (faInnerIterTrace false baseline) =
      barrierCount (faInnerIterTrace true baseline) ∧
    barrierCount (faComputeBranch baseline) = 4 ∧
    barrierCount faDmBranch = 4 ∧
    barrierCount (faInnerIterTrace true baseline) = 6 := by
  cases baseline <;> exact ⟨rfl, rfl, rfl, rfl⟩

/-- Any fold of the step `if acc < f j then f j else acc` (the source's
`if (val > m_i) m_i = val`) only increases the accumulator. -/
theorem foldl_ifmax_le {α : Type} [LinearOrder α] (f : ℕ → α) :
    ∀ (l : List ℕ) (acc : α),
      acc ≤ l.foldl (fun acc j => if acc < f j then f j else acc) acc := by
  intro l
  induction l with
  | nil => intro acc; exact le_refl acc
  | cons x xs ih =>
    intro acc
    refine le_trans ?_ (ih (if acc < f x then f x else acc))
    by_cases h : acc < f x
    · simp [h, le_of_lt h]
    · simp [h]

/-- C5: for every row of the current Q row-block, the running maximum `m_i` is
monotonically non-decreasing across the iterations of the inner column-tile
loop, and at the start of each outer row-tile iteration (before any inner
iteration has run) `m_i` and `m_i_prev` are `-INFINITY` (modelled `⊥`) and
`l_i` is `0`. -/
theorem C5_fa_stats_reset_and_monotone_max {F : Type} [LinearOrderedField F]
    (E : F → F) (d B_r B_c : ℕ) (Q K V : ℕ → F) (baseline : Bool) (t_r : ℕ) :
    (∀ r, (faInnerState E d B_r B_c Q K V baseline t_r 0).m r = ⊥ ∧
        (faInnerState E d B_r B_c Q K V baseline t_r 0).mPrev r = ⊥ ∧
        (faInnerState E d B_r B_c Q K V baseline t_r 0).l r = 0) ∧
    (∀ t r, (faInnerState E d B_r B_c Q K V baseline t_r t).m r ≤
        (faInnerState E d B_r B_c Q K V baseline t_r (t + 1)).m r) := by
  constructor
  · intro r; exact ⟨rfl, rfl, rfl⟩
  · intro t r
    have hstep : faInnerState E d B_r B_c Q K V baseline t_r (t + 1) =
        faInnerStep E d B_r B_c Q K V baseline t_r
          (faInnerState E d B_r B_c Q K V baseline t_r t) t := by
      simp [faInnerState, List.range_succ]
    rw [hstep]
    set st := faInnerState E d B_r B_c Q K V baseline t_r t
    show st.m r ≤ (faInnerStep E d B_r B_c Q K V baseline t_r st t).m r
    simp only [faInnerStep]
    by_cases h : r < B_r
    · simp only [h, if_true]
      exact foldl_ifmax_le _ (List.range B_c) (st.m r)
    · simp [h]

/-- `rows_per_core = B_r / num_cores` (source line 124). -/
def faRowsPerCore (B_r num_cores : ℕ) : ℕ := B_r / num_cores

/-- `start_row = rows_per_core * compute_id` where `compute_id` is the GLOBAL
core index `snrt_global_core_idx()` (source lines 57 and 125). -/
def faStartRow (B_r num_cores compute_id : ℕ) : ℕ :=
  faRowsPerCore B_r num_cores * compute_id

/-- `end_row = start_row + rows_per_core` (source line 126). -/
def faEndRow (B_r num_cores compute_id : ℕ) : ℕ :=
  faStartRow B_r num_cores compute_id + faRowsPerCore B_r num_cores

/-- C10: under the precondition that `num_cores` divides `B_r` (and `B_r > 0`),
a compute core whose global index is below `num_cores` — i.e. whose global
index coincides with its within-cluster compute-core index, as on a single
cluster — only touches row indices in `[0, B_r)` of the per-row-block buffers;
and any compute core whose global index is at least `num_cores` accesses a
nonempty row range lying entirely at or beyond `B_r` (out of bounds). -/
theorem C10_fa_row_partition (B_r num_cores compute_id : ℕ)
    (hdvd : num_cores ∣ B_r) (hpos : 0 < B_r) :
    (compute_id < num_cores →
      ∀ r, faStartRow B_r num_cores compute_id ≤ r →
        r < faEndRow B_r num_cores compute_id → r < B_r) ∧
    (num_cores ≤ compute_id →
      B_r ≤ faStartRow B_r num_cores compute_id ∧
      faStartRow B_r num_cores compute_id < faEndRow B_r num_cores compute_id) := by
  obtain ⟨q, rfl⟩ := hdvd
  have hn : 0 < num_cores := by
    rcases Nat.eq_zero_or_pos num_cores with h | h
    · subst h; simp at hpos
    · exact h
  have hq : 0 < q := by
    rcases Nat.eq_zero_or_pos q with h | h
    · subst h; simp at hpos
    · exact h
  have hrpc : faRowsPerCore (num_cores * q) num_cores = q := by
    simp [faRowsPerCore, Nat.mul_div_cancel_left q hn]
  constructor
  · intro hid r _ hr
    have h1 : r < q * (compute_id + 1) := by
      simp only [faEndRow, faStartRow, hrpc] at hr
      calc r < q * compute_id + q := hr
        _ = q * (compute_id + 1) := by ring
    have h2 : q * (compute_id + 1) ≤ q * num_cores :=
      Nat.mul_le_mul_left q hid
    calc r < q * (compute_id + 1) := h1
      _ ≤ q * num_cores := h2
      _ = num_cores * q := by ring
  · intro hid
    constructor
    · simp only [faStartRow, hrpc]
      calc num_cores * q = q * num_cores := by ring
        _ ≤ q * compute_id := Nat.mul_le_mul_left q hid
    · simp only [faEndRow, faStartRow, hrpc]
      omega

/-- Witness for C10 at `B_r = 4`, `num_cores = 2`: global core index 3 starts
at row 4, outside the block, while core 1 accesses row 2, inside it. -/
theorem C10_fa_row_partition_witness :
    4 ≤ faStartRow 4 2 3 ∧ (2 : ℕ) < 4 :=
  ⟨((C10_fa_row_partition 4 2 3 ⟨2, rfl⟩ (by decide)).2 (by decide)).1,
    (C10_fa_row_partition 4 2 1 ⟨2, rfl⟩ (by decide)).1 (by decide) 2
      (by decide) (by decide)⟩

/-- Bridging lemmas from the `WithBot` numeral normal form back to the
coercion form, used to evaluate `wsub`/`expW` on concrete states. -/
theorem wb_zero {F : Type} [LinearOrderedField F] : (0 : WithBot F) = ((0 : F) : WithBot F) := rfl

theorem wb_one {F : Type} [LinearOrderedField F] : (1 : WithBot F) = ((1 : F) : WithBot F) := rfl

theorem wb_two {F : Type} [LinearOrderedField F] : (2 : WithBot F) = ((2 : F) : WithBot F) := rfl


/-- Concrete query tensor of the C1/C2 failing inputs (`N = 2`, `d = 1`):
row 0 of `Q` is `[1]`, row 1 is `[0]`. -/
def cQ1 {F : Type} [LinearOrderedField F] : ℕ → F := fun a => if a = 0 then 1 else 0

/-- Concrete key tensor of the C1 failing input: row 0 of `K` is `[0]`, row 1
is `[1]`, so the row-0 scores are `s_0 = 0` (tile 0) and `s_1 = 1` (tile 1) and
the running maximum strictly increases at the second column tile. -/
def cK1 {F : Type} [LinearOrderedField F] : ℕ → F := fun a => if a = 1 then 1 else 0

/-- Concrete value tensor of the C1 failing input: `V = [[1], [0]]`. -/
def cV1 {F : Type} [LinearOrderedField F] : ℕ → F := fun a => if a = 0 then 1 else 0

/-- Evaluation of the kernel model on the C1 failing input
(`N = 2, d = 1, B_r = 2, B_c = 1`, both GEMM paths): the entry `O[0][0]`
equals `(E 0 / E (-1)) / (E 0 * E (-1) + E 0)` — the first tile's contribution
was divided by `shifted_exp = E(0 - 1)` instead of multiplied. -/
theorem fa_cex1_flash_eval {F : Type} [LinearOrderedField F] (E : F → F) (baseline : Bool) :
    flashattention_2_layer E 2 1 2 1 cQ1 cK1 cV1 (fun _ => 0) baseline 0 =
      (E 0 / E (-1)) / (E 0 * E (-1) + E 0) := by
  cases baseline <;>
    · simp only [flashattention_2_layer, faOblock, faInnerState, List.range_succ,
        List.range_zero, List.foldl_append, List.foldl_cons, List.foldl_nil,
        faInnerStep, faS_fa, faQ_fa, faK_fa, faV_fa, gemmModel, dmaStart2d,
        transposeModel, faInitState, cQ1, cK1, cV1]
      norm_num
      simp only [wb_zero, wb_one, wb_two, WithBot.bot_lt_coe, WithBot.coe_lt_coe, wsub_coe_coe, expW_coe, expW_bot, wsub_bot_left, zero_lt_one, lt_self_iff_false, if_true, if_false]
      try norm_num [gemmModel, dmaStart2d, transposeModel, cV1]
      try simp only [wb_zero, wb_one, wb_two, WithBot.bot_lt_coe, WithBot.coe_lt_coe, wsub_coe_coe, expW_coe, expW_bot, wsub_bot_left, zero_lt_one, lt_self_iff_false, if_true, if_false]
      norm_num

/-- Evaluation of the non-tiled reference on the C1 failing input:
`O_ref[0][0] = E 0 / (E 0 + E 1)`. -/
theorem fa_cex1_ref_eval {F : Type} [LinearOrderedField F] (E : F → F) :
    attentionRef E 2 1 cQ1 cK1 cV1 0 = E 0 / (E 0 + E 1) := by
  simp only [attentionRef, faScore, cQ1, cK1, cV1]
  norm_num [Finset.sum_range_succ]

/-- C1 (code_bug evidence): on the failing input `N = 2, d = 1, B_r = 2,
B_c = 1`, `Q = [[1],[0]]`, `K = [[0],[1]]`, `V = [[1],[0]]`, the kernel output
`O[0][0]` differs from the direct `softmax(QK^T)*V` reference, on both the
baseline and the optimized GEMM path, for every exponential `E` with the
algebraic properties of `exp` (`E (a+b) = E a * E b`, `E > 0`, `1 < E 1`):
the inner loop divides the accumulated `O` row by `shifted_exp` where the
FlashAttention-2 algorithm multiplies by it. -/
theorem C1_fa_output_differs_from_reference {F : Type} [LinearOrderedField F]
    (E : F → F) (hHom : ∀ a b, E (a + b) = E a * E b) (hPos : ∀ a, 0 < E a)
    (hE1 : 1 < E 1) (baseline : Bool) :
    flashattention_2_layer E 2 1 2 1 cQ1 cK1 cV1 (fun _ => 0) baseline 0 ≠
      attentionRef E 2 1 cQ1 cK1 cV1 0 := by
  have h0 : E 0 = 1 := by
    have h := hHom 0 0
    rw [add_zero] at h
    have hne : E 0 ≠ 0 := (hPos 0).ne'
    have h1 : E 0 * 1 = E 0 * E 0 := by rw [mul_one]; exact h
    exact (mul_left_cancel₀ hne h1).symm
  have hinv : E (-1) * E 1 = 1 := by
    have h := hHom (-1) 1
    rw [neg_add_cancel, h0] at h
    exact h.symm
  rw [fa_cex1_flash_eval, fa_cex1_ref_eval, h0]
  intro h
  have hy : 0 < E (-1) := hPos (-1)
  have hx : 0 < E 1 := hPos 1
  have hylt : E (-1) < 1 := by nlinarith
  field_simp at h
  nlinarith [h, hylt, hy, hx, hE1]

/-- Witness for C1 at `F = ℝ`, `E = Real.exp`. -/
theorem C1_fa_output_differs_from_reference_witness :
    flashattention_2_layer Real.exp 2 1 2 1 cQ1 cK1 cV1 (fun _ => 0) true 0 ≠
      attentionRef Real.exp 2 1 cQ1 cK1 cV1 0 :=
  C1_fa_output_differs_from_reference Real.exp Real.exp_add Real.exp_pos
    (Real.one_lt_exp_iff.mpr one_pos) true

/-- Concrete key tensor of the C2 failing input: `K = [[0], [2]]`, so the row-0
scores are `0` (tile 0) and `2` (tile 1). -/
def cK2 {F : Type} [LinearOrderedField F] : ℕ → F := fun a => if a = 1 then 2 else 0

/-- Concrete value tensor of the C2 failing input: `V = [[3], [5]]`. -/
def cV2 {F : Type} [LinearOrderedField F] : ℕ → F :=
  fun a => if a = 0 then 3 else if a = 1 then 5 else 0

/-- Accumulated `O_fa[0][0]` after the inner loop has processed column tiles 0
and 1 on the C2 failing input: the tile-0 contribution `E 0 * 3` was divided by
`shifted_exp = E (-2)`. -/
theorem fa_cex2_O_eval {F : Type} [LinearOrderedField F] (E : F → F) :
    (faInnerState E 1 2 1 cQ1 cK2 cV2 true 0 2).O 0 =
      E 0 * 5 + E 0 * 3 / E (-2) := by
  simp only [faInnerState, List.range_succ, List.range_zero, List.foldl_append,
    List.foldl_cons, List.foldl_nil, faInnerStep, faS_fa, faQ_fa, faK_fa, faV_fa,
    gemmModel, dmaStart2d, transposeModel, faInitState, cQ1, cK2, cV2]
  norm_num
  try simp only [wb_zero, wb_one, wb_two, WithBot.bot_lt_coe, WithBot.coe_lt_coe, wsub_coe_coe, expW_coe, expW_bot, wsub_bot_left, zero_lt_one, lt_self_iff_false, if_true, if_false]
  try norm_num [gemmModel, dmaStart2d, transposeModel, cV2]
  try simp only [wb_zero, wb_one, wb_two, WithBot.bot_lt_coe, WithBot.coe_lt_coe, wsub_coe_coe, expW_coe, expW_bot, wsub_bot_left, zero_lt_one, lt_self_iff_false, if_true, if_false]
  try norm_num
  try simp only [wb_zero, wb_one, wb_two, WithBot.bot_lt_coe, WithBot.coe_lt_coe, wsub_coe_coe, expW_coe, expW_bot, wsub_bot_left, zero_lt_one, lt_self_iff_false, if_true, if_false]
  try norm_num
  try ring

/-- Running normalization sum `l_i[0]` after the same two inner iterations. -/
theorem fa_cex2_l_eval {F : Type} [LinearOrderedField F] (E : F → F) :
    (faInnerState E 1 2 1 cQ1 cK2 cV2 true 0 2).l 0 =
      E 0 * E (-2) + E 0 := by
  simp only [faInnerState, List.range_succ, List.range_zero, List.foldl_append,
    List.foldl_cons, List.foldl_nil, faInnerStep, faS_fa, faQ_fa, faK_fa, faV_fa,
    gemmModel, dmaStart2d, transposeModel, faInitState, cQ1, cK2, cV2]
  norm_num
  try simp only [wb_zero, wb_one, wb_two, WithBot.bot_lt_coe, WithBot.coe_lt_coe, wsub_coe_coe, expW_coe, expW_bot, wsub_bot_left, zero_lt_one, lt_self_iff_false, if_true, if_false]
  try norm_num
  try simp only [wb_zero, wb_one, wb_two, WithBot.bot_lt_coe, WithBot.coe_lt_coe, wsub_coe_coe, expW_coe, expW_bot, wsub_bot_left, zero_lt_one, lt_self_iff_false, if_true, if_false]
  try norm_num

/-- The spec's softmax-weighted prefix sum over tiles 0..1 on the C2 failing
input, for row 0, column 0. -/
theorem fa_cex2_prefix_eval {F : Type} [LinearOrderedField F] (E : F → F) :
    faPrefixRef E 1 1 cQ1 cK2 cV2 0 0 1 =
      (E 0 * 3 + E 2 * 5) / (E 0 + E 2) := by
  simp only [faPrefixRef, faScore, cQ1, cK2, cV2]
  norm_num [Finset.sum_range_succ]

/-- C2 (code_bug evidence): after the inner loop has processed column tiles 0
and 1 on the failing input `B_r = 2, B_c = 1, d = 1`, `Q = [[1],[0]]`,
`K = [[0],[2]]`, `V = [[3],[5]]`, the accumulated row `O_fa[0]` divided by
`l_i[0]` does NOT equal the softmax-weighted sum of the `V` rows of the
processed tiles, for any exponential `E` with `E (a+b) = E a * E b`,
`E > 0` and `1 < E 1`: the in-place division of the accumulated `O` row by
`shifted_exp` (where FlashAttention-2 multiplies) breaks the prefix
invariant as soon as a later tile raises the row maximum. -/
theorem C2_fa_prefix_rescaling_differs {F : Type} [LinearOrderedField F]
    (E : F → F) (hHom : ∀ a b, E (a + b) = E a * E b) (hPos : ∀ a, 0 < E a)
    (hE1 : 1 < E 1) :
    (faInnerState E 1 2 1 cQ1 cK2 cV2 true 0 2).O 0 /
        (faInnerState E 1 2 1 cQ1 cK2 cV2 true 0 2).l 0 ≠
      faPrefixRef E 1 1 cQ1 cK2 cV2 0 0 1 := by
  have h0 : E 0 = 1 := by
    have h := hHom 0 0
    rw [add_zero] at h
    have hne : E 0 ≠ 0 := (hPos 0).ne'
    have h1 : E 0 * 1 = E 0 * E 0 := by rw [mul_one]; exact h
    exact (mul_left_cancel₀ hne h1).symm
  have hx2 : 1 < E 2 := by
    have h := hHom 1 1
    norm_num at h
    nlinarith [hE1]
  have hinv : E (-2) * E 2 = 1 := by
    have h := hHom (-2) 2
    rw [neg_add_cancel, h0] at h
    exact h.symm
  rw [fa_cex2_O_eval, fa_cex2_l_eval, fa_cex2_prefix_eval, h0]
  intro h
  have hy : 0 < E (-2) := hPos (-2)
  field_simp at h
  nlinarith [h, hy, hx2, hinv]

/-- Witness for C2 at `F = ℝ`, `E = Real.exp`. -/
theorem C2_fa_prefix_rescaling_differs_witness :
    (faInnerState Real.exp 1 2 1 cQ1 cK2 cV2 true 0 2).O 0 /
        (faInnerState Real.exp 1 2 1 cQ1 cK2 cV2 true 0 2).l 0 ≠
      faPrefixRef Real.exp 1 1 cQ1 cK2 cV2 0 0 1 :=
  C2_fa_prefix_rescaling_differs Real.exp Real.exp_add Real.exp_pos
    (Real.one_lt_exp_iff.mpr one_pos)

/-- The `#define UNROLL 4` of `layernorm.h` (line 11). -/
def UNROLL : ℕ := 4

/-- The scalar FP32 LayerNorm tile kernel `layernorm_fp32_naive` (source lines
45-97), run by the compute core with cluster core index `core_idx` out of
`num_cores` compute cores. The source's interleaved access (start offset
`core_idx * embeddings`, stride `num_cores * embeddings`, and
`tile_seq_len = seq_len / num_cores` iterations per batch) makes the core own
the rows `row` of the tile with `row % num_cores = core_idx` and
`row / num_cores < seq_len / num_cores`; for each owned row it writes
`(x - mean) / sqrtf(var + eps)` with `mean = Σx / embeddings`,
`var = Σ(x - mean)^2 / embeddings`. The `eps` parameter is the source's
`int32_t eps`, promoted to float inside `var + eps`. A flat address `a`
decomposes as `a = b*(seq_len*embeddings) + row*embeddings + i`. -/
def layernorm_fp32_naive {F : Type} [LinearOrderedField F] (sqrtF : F → F)
    (core_idx num_cores batch_size seq_len embeddings : ℕ) (eps : ℤ)
    (input output : ℕ → F) : ℕ → F :=
  fun a =>
    let i := a % embeddings
    let r := a / embeddings
    let b := r / seq_len
    let row := r % seq_len
    if b < batch_size ∧ row % num_cores = core_idx ∧
        row / num_cores < seq_len / num_cores ∧ 0 < embeddings ∧ i < embeddings then
      let rowBase := b * (seq_len * embeddings) + row * embeddings
      let mean := (∑ j ∈ Finset.range embeddings, input (rowBase + j)) / (embeddings : F)
      let var := (∑ j ∈ Finset.range embeddings,
        (input (rowBase + j) - mean) * (input (rowBase + j) - mean)) / (embeddings : F)
      (input a - mean) / sqrtF (var + (eps : F))
    else output a

/-- The scalar FP16 LayerNorm tile kernel `layernorm_fp16_naive` (source lines
249-301): identical row ownership and arithmetic to the FP32 scalar kernel
(the accumulations are in float in the source; values are modelled exactly). -/
def layernorm_fp16_naive {F : Type} [LinearOrderedField F] (sqrtF : F → F)
    (core_idx num_cores batch_size seq_len embeddings : ℕ) (eps : ℤ)
    (input output : ℕ → F) : ℕ → F :=
  fun a =>
    let i := a % embeddings
    let r := a / embeddings
    let b := r / seq_len
    let row := r % seq_len
    if b < batch_size ∧ row % num_cores = core_idx ∧
        row / num_cores < seq_len / num_cores ∧ 0 < embeddings ∧ i < embeddings then
      let rowBase := b * (seq_len * embeddings) + row * embeddings
      let mean := (∑ j ∈ Finset.range embeddings, input (rowBase + j)) / (embeddings : F)
      let var := (∑ j ∈ Finset.range embeddings,
        (input (rowBase + j) - mean) * (input (rowBase + j) - mean)) / (embeddings : F)
      (input a - mean) / sqrtF (var + (eps : F))
    else output a

/-- One `vfsum.s` accumulator of the vectorized FP32 kernel: instruction `k` of
the unrolled FREP body accumulates, over the `n_frep` FREP iterations, the
pairwise lane sums of the streamed `v2f32` values — elements `8*it + 2*k` and
`8*it + 2*k + 1` of the row. -/
def lnOptGroup {F : Type} [LinearOrderedField F] (x : ℕ → F) (n_frep k : ℕ) : F :=
  ∑ it ∈ Finset.range n_frep, (x (8 * it + 2 * k) + x (8 * it + 2 * k + 1))

/-- The SSR/FREP vectorized FP32 kernel `layernorm_fp32_opt` (source lines
99-247), modelled from the stream patterns and the three asm blocks:
* the mean block zeroes four accumulators (`vfcpka.s.s`) and accumulates the
  pairwise lane sums of the input row streamed by SSR 0 (`vfsum.s`), then
  reduces `((mean0 + mean1) + (mean2 + mean3)) / embeddings` (`fadd.s`,
  `fdiv.s`);
* the variance block streams the row a second time (dimension 2 of the 4D SSR
  pattern has bound 2 and stride 0), writes the centered values `x - mean` to
  the ft1 output stream (`vfsub.s` + `vfadd.s` with zero), accumulates the
  pairwise sums of their squares (`vfmul.s` + `vfsum.s`), and finishes with
  `var/embeddings + eps`, `fsqrt.s`, and the reciprocal `fdiv.s`;
* the normalization block re-reads the centered row from the output buffer
  through SSR 2 and multiplies it by the reciprocal standard deviation
  (`vfmul.s`), writing through the second traversal of the output stream.
Each FREP covers `n_frep = embeddings / (UNROLL * 2)` iterations of 8 floats
(`num_elems_per_vector = 2`), i.e. the first `8 * n_frep` columns of each owned
row — all of them when `8 ∣ embeddings`. Row ownership is as in the scalar
kernel. -/
def layernorm_fp32_opt {F : Type} [LinearOrderedField F] (sqrtF : F → F)
    (core_idx num_cores batch_size seq_len embeddings : ℕ) (eps : ℤ)
    (input output : ℕ → F) : ℕ → F :=
  fun a =>
    let i := a % embeddings
    let r := a / embeddings
    let b := r / seq_len
    let row := r % seq_len
    let n_frep := embeddings / (UNROLL * 2)
    if b < batch_size ∧ row % num_cores = core_idx ∧
        row / num_cores < seq_len / num_cores ∧ 0 < embeddings ∧ i < 8 * n_frep then
      let rowBase := b * (seq_len * embeddings) + row * embeddings
      let x : ℕ → F := fun j => input (rowBase + j)
      let mean_tot := ((lnOptGroup x n_frep 0 + lnOptGroup x n_frep 1) +
        (lnOptGroup x n_frep 2 + lnOptGroup x n_frep 3)) / (embeddings : F)
      let xc : ℕ → F := fun j => x j - mean_tot
      let var_tot := ((lnOptGroup (fun j => xc j * xc j) n_frep 0 +
          lnOptGroup (fun j => xc j * xc j) n_frep 1) +
        (lnOptGroup (fun j => xc j * xc j) n_frep 2 +
          lnOptGroup (fun j => xc j * xc j) n_frep 3)) / (embeddings : F)
      (input a - mean_tot) * (1 / sqrtF (var_tot + (eps : F)))
    else output a

/-- The FP16 vectorized kernel `layernorm_fp16_opt` (source lines 303-418): its
single live asm block computes only the per-row mean — the variance block and
the packing of the normalization factor are commented out (lines 365-368 and
396-402), no instruction writes the ft1 output stream, and after the mean the
row loop only DUMPs `mean_tot` — so the kernel never writes `output`. -/
def layernorm_fp16_opt {F : Type} [LinearOrderedField F] (sqrtF : F → F)
    (core_idx num_cores batch_size seq_len embeddings : ℕ) (eps : ℤ)
    (input output : ℕ → F) : ℕ → F :=
  output

/-- The `layernorm_layer_t` configuration record (source lines 30-40); the
`ifmap`/`ofmap` pointers are modelled as separate buffer arguments. The float
`eps` field is modelled as an exact rational. -/
structure layernorm_layer_t where
  batch_size : ℕ
  seq_len : ℕ
  embeddings : ℕ
  n_tiles : ℕ
  baseline : ℕ
  eps : ℚ
  dtype : Precision

/-- The C conversion of the configuration's float `eps` to the kernels'
`int32_t eps` parameter: truncation toward zero. -/
def truncToInt (q : ℚ) : ℤ := if 0 ≤ q then ⌊q⌋ else -⌊-q⌋

/-- The kernels reachable from `layernorm_layer`'s per-tile compute dispatch. -/
inductive LNKernel where
  | fp32_naive
  | fp32_opt
  | fp16_naive
  | fp16_opt
  | unsupported
deriving DecidableEq

/-- The per-tile compute dispatch of `layernorm_layer` (source lines 488-503):
`baseline == 1` selects `layernorm_fp32_naive` regardless of dtype (for FP16
the half-precision tile buffers are passed to it reinterpreted as `float *`);
otherwise the dispatch follows the dtype, with the `layernorm_fp16_naive` call
commented out (lines 498-499) and any other dtype printing the unsupported
diagnostic. -/
def lnDispatch (baseline : ℕ) (dtype : Precision) : LNKernel :=
  if baseline = 1 then .fp32_naive
  else if dtype = .FP32 then .fp32_opt
  else if dtype = .FP16 then .fp16_opt
  else .unsupported

/-- How many times one core prints the `Unsupported data type` diagnostic along
`layernorm_layer` (source lines 424-431, 447-460 and 488-503): once in the
`data_type_size` selection chain, once in the TCDM buffer-setup chain, and,
when `baseline != 1`, once per processed tile in the compute dispatch. -/
def lnUnsupportedReports (num_clusters : ℕ) (l : layernorm_layer_t) : ℕ :=
  (if l.dtype = .FP32 ∨ l.dtype = .FP16 then 0 else 1) +
  (if l.dtype = .FP32 ∨ l.dtype = .FP16 then 0 else 1) +
  (if l.baseline = 1 ∨ l.dtype = .FP32 ∨ l.dtype = .FP16 then 0
    else l.n_tiles / num_clusters)

/-- The `data_type_size` selection at `layernorm_layer` entry (source lines
424-431): `none` models the unsupported branch, where the source prints the
diagnostic and leaves `data_type_size` (and subsequently the tile sizes and
TCDM pointers) uninitialized, so the normalization is undefined rather than
performed; the function returns no error code (it is `void`). -/
def lnDataTypeSize : Precision → Option ℕ
  | .FP32 => some 4
  | .FP16 => some 2
  | _ => none

/-- All compute cores of one cluster running the dispatched kernel on the local
tile (source lines 486-504). The cores write disjoint interleaved row sets
between two cluster barriers, so the sequential fold over the core indices
equals the parallel outcome. Buffer values carry the FP32 semantics; the
`baseline == 1` FP16 reinterpretation is tracked by `lnDispatch` (claim C9). -/
def lnTileCompute {F : Type} [LinearOrderedField F] (sqrtF : F → F)
    (num_cores : ℕ) (l : layernorm_layer_t) (tile_seq_len : ℕ)
    (itile otile : ℕ → F) : ℕ → F :=
  if l.baseline = 1 then
    (List.range num_cores).foldl
      (fun out c => layernorm_fp32_naive sqrtF c num_cores l.batch_size
        tile_seq_len l.embeddings (truncToInt l.eps) itile out) otile
  else if l.dtype = .FP32 then
    (List.range num_cores).foldl
      (fun out c => layernorm_fp32_opt sqrtF c num_cores l.batch_size
        tile_seq_len l.embeddings (truncToInt l.eps) itile out) otile
  else if l.dtype = .FP16 then
    (List.range num_cores).foldl
      (fun out c => layernorm_fp16_opt sqrtF c num_cores l.batch_size
        tile_seq_len l.embeddings (truncToInt l.eps) itile out) otile
  else otile

/-- The per-tile loop body of `layernorm_layer` (source lines 464-523): the
data-mover core copies the strided input tile into TCDM (lines 470-482), the
compute cores normalize it, and the output tile is copied back with the
transposed strides (lines 509-522), with cluster barriers separating the
phases; the state is the triple (main-memory ofmap, TCDM itile, TCDM otile).
The cluster's TCDM tile buffers are reused across its tile iterations. -/
def lnTileStep {F : Type} [LinearOrderedField F] (sqrtF : F → F)
    (num_cores : ℕ) (l : layernorm_layer_t) (ifmap : ℕ → F) (tile_idx : ℕ)
    (st : (ℕ → F) × (ℕ → F) × (ℕ → F)) : (ℕ → F) × (ℕ → F) × (ℕ → F) :=
  let tile_seq_len := l.seq_len / l.n_tiles
  let chunk := tile_seq_len * l.embeddings
  let itile := dmaStart2d st.2.1 ifmap 0 (tile_idx * chunk) chunk chunk
    (l.seq_len * l.embeddings) l.batch_size
  let otile := lnTileCompute sqrtF num_cores l tile_seq_len itile st.2.2
  let ofm' := dmaStart2d st.1 otile (tile_idx * chunk) 0 chunk
    (l.seq_len * l.embeddings) chunk l.batch_size
  (ofm', itile, otile)

/-- The full `layernorm_layer` (source lines 423-526): the sequence axis is
split into `n_tiles` tiles distributed over the clusters
(`n_tiles_per_cluster = n_tiles / num_clusters` each; cluster `cl` processes
the absolute tiles `cl * n_tiles_per_cluster + ct` by folding `lnTileStep`
over its tile indices, starting from the `scratchI`/`scratchO` TCDM buffers).
The clusters write disjoint `ofmap` regions, so the sequential fold over the
cluster indices equals the parallel outcome. The result is the final `ofmap`
content. -/
def layernorm_layer {F : Type} [LinearOrderedField F] (sqrtF : F → F)
    (num_clusters num_cores : ℕ) (l : layernorm_layer_t)
    (ifmap ofmap scratchI scratchO : ℕ → F) : ℕ → F :=
  let n_tiles_per_cluster := l.n_tiles / num_clusters
  (List.range num_clusters).foldl
    (fun ofm cl =>
      ((List.range n_tiles_per_cluster).foldl
        (fun st ct =>
          lnTileStep sqrtF num_cores l ifmap (cl * n_tiles_per_cluster + ct) st)
        (ofm, scratchI, scratchO)).1)
    ofmap

/-- C9: whenever the configuration has `baseline == 1`, the per-tile compute
dispatch of `layernorm_layer` selects `layernorm_fp32_naive` regardless of the
dtype field (in particular for `dtype == FP16`, whose half-precision buffers
are then handed to the FP32 scalar kernel), and `layernorm_fp16_naive` is
never selected by any configuration (its call is commented out). -/
theorem C9_layernorm_baseline_dispatch :
    (∀ dtype, lnDispatch 1 dtype = LNKernel.fp32_naive) ∧
    (∀ baseline dtype, lnDispatch baseline dtype ≠ LNKernel.fp16_naive) := by
  constructor
  · intro dtype; rfl
  · intro baseline dtype
    unfold lnDispatch
    split_ifs <;> decide

/-- C7: for a dtype other than FP32 and FP16, `layernorm_layer` prints the
`Unsupported data type` diagnostic (at least once along every core's control
flow) and the `data_type_size` selection yields no size, leaving the
normalization undefined/skipped rather than silently performed; the function
is `void`, so no return code is propagated. -/
theorem C7_layernorm_unsupported_dtype (num_clusters : ℕ)
    (l : layernorm_layer_t) (h32 : l.dtype ≠ Precision.FP32)
    (h16 : l.dtype ≠ Precision.FP16) :
    0 < lnUnsupportedReports num_clusters l ∧ lnDataTypeSize l.dtype = none := by
  have hns : ¬(l.dtype = Precision.FP32 ∨ l.dtype = Precision.FP16) := by
    rintro (h | h)
    · exact h32 h
    · exact h16 h
  constructor
  · simp only [lnUnsupportedReports, if_neg hns]
    exact lt_of_lt_of_le (by norm_num) (Nat.le_add_right (1 + 1) _)
  · cases hdt : l.dtype
    · rfl
    · exact absurd hdt h32
    · exact absurd hdt h16
    · rfl

/-- Witness for C7 at a concrete FP64 configuration. -/
theorem C7_layernorm_unsupported_dtype_witness :
    0 < lnUnsupportedReports 1 ⟨1, 1, 1, 1, 1, 0, Precision.FP64⟩ ∧
      lnDataTypeSize Precision.FP64 = none :=
  C7_layernorm_unsupported_dtype 1 ⟨1, 1, 1, 1, 1, 0, Precision.FP64⟩
    (by decide) (by decide)

/-- The four interleaved `vfsum.s` accumulators of the vectorized kernel sum to
the plain sequential sum of the `8 * n_frep` streamed elements. -/
theorem lnOptGroup_total {F : Type} [LinearOrderedField F] (x : ℕ → F) (n : ℕ) :
    (lnOptGroup x n 0 + lnOptGroup x n 1) + (lnOptGroup x n 2 + lnOptGroup x n 3) =
      ∑ j ∈ Finset.range (8 * n), x j := by
  induction n with
  | zero => simp [lnOptGroup]
  | succ m ih =>
    have h8 : 8 * (m + 1) = 8 * m + 8 := by ring
    rw [h8, Finset.sum_range_add, ← ih]
    have hg : ∀ k, lnOptGroup x (m + 1) k =
        lnOptGroup x m k + (x (8 * m + 2 * k) + x (8 * m + 2 * k + 1)) := by
      intro k
      exact Finset.sum_range_succ _ m
    rw [hg 0, hg 1, hg 2, hg 3]
    norm_num [Finset.sum_range_succ]
    ring

/-- C6 (amended, FP32 part): on tiles whose embedding dimension is a multiple
of the 8-element stream width (`UNROLL * num_elems_per_vector`), the
vectorized/pipelined `layernorm_fp32_opt` writes exactly the same output
buffer as the scalar `layernorm_fp32_naive`, for every core, tile shape, eps
and input: the lane-grouped reductions reassociate to the sequential sums and
multiplying by the reciprocal square root equals dividing by it. -/
theorem C6_layernorm_fp32_opt_equiv_naive {F : Type} [LinearOrderedField F]
    (sqrtF : F → F) (core_idx num_cores batch_size seq_len embeddings : ℕ)
    (eps : ℤ) (input output : ℕ → F) (hdvd : 8 ∣ embeddings) :
    layernorm_fp32_opt sqrtF core_idx num_cores batch_size seq_len embeddings
        eps input output =
      layernorm_fp32_naive sqrtF core_idx num_cores batch_size seq_len
        embeddings eps input output := by
  have hU : UNROLL * 2 = 8 := rfl
  have h8 : 8 * (embeddings / (UNROLL * 2)) = embeddings := by
    rw [hU, Nat.mul_div_cancel' hdvd]
  funext a
  simp only [layernorm_fp32_opt, layernorm_fp32_naive, h8]
  rw [lnOptGroup_total, lnOptGroup_total, h8, mul_one_div]

/-- C6 counterexample (FP16 part of the claim): on a valid 16-element FP16 tile
of constant value 4 (one batch, one row, one core, `eps = 1`), the scalar FP16
reference writes the normalized value 0 at index 0, while `layernorm_fp16_opt`
leaves the output buffer (initialized to 7) untouched — the vectorized FP16
path computes only the row mean and never writes the output, so it is not
numerically equivalent to the scalar fp16 reference. -/
theorem C6_layernorm_fp16_opt_cex :
    layernorm_fp16_opt (F := ℚ) id 0 1 1 1 16 1 (fun _ => 4) (fun _ => 7) 0 ≠
      layernorm_fp16_naive (F := ℚ) id 0 1 1 1 16 1 (fun _ => 4) (fun _ => 7) 0 := by
  norm_num [layernorm_fp16_opt, layernorm_fp16_naive, Finset.sum_range_succ]

/-- Witness for the C6 equivalence theorem at a concrete 8-element tile. -/
theorem C6_layernorm_fp32_opt_equiv_naive_witness :
    layernorm_fp32_opt (F := ℚ) id 0 1 1 1 8 1 (fun _ => 2) (fun _ => 5) =
      layernorm_fp32_naive (F := ℚ) id 0 1 1 1 8 1 (fun _ => 2) (fun _ => 5) :=
  C6_layernorm_fp32_opt_equiv_naive id 0 1 1 1 8 1 (fun _ => 2) (fun _ => 5)
    ⟨1, rfl⟩

/-- The per-row closed form of the scalar LayerNorm on a `(batch, seq, emb)`
feature map `x`: row `(b, s)`, column `i`, with already-truncated `eps`. -/
def lnRowValue {F : Type} [LinearOrderedField F] (sqrtF : F → F)
    (seq emb : ℕ) (eps : ℤ) (x : ℕ → F) (b s i : ℕ) : F :=
  let rowBase := b * (seq * emb) + s * emb
  let mean := (∑ j ∈ Finset.range emb, x (rowBase + j)) / (emb : F)
  let var := (∑ j ∈ Finset.range emb,
    (x (rowBase + j) - mean) * (x (rowBase + j) - mean)) / (emb : F)
  (x (rowBase + i) - mean) / sqrtF (var + (eps : F))

/-- Division and remainder of the flat row-major index
`b * (seq * emb) + s * emb + i`. -/
theorem flat3_decomp (seq emb b s i : ℕ) (hs : s < seq) (hi : i < emb) :
    (b * (seq * emb) + s * emb + i) / (seq * emb) = b ∧
    (b * (seq * emb) + s * emb + i) / emb = b * seq + s ∧
    (b * (seq * emb) + s * emb + i) / emb % seq = s ∧
    (b * (seq * emb) + s * emb + i) % emb = i := by
  have hemb : 0 < emb := lt_of_le_of_lt (Nat.zero_le i) hi
  have hseq0 : 0 < seq := lt_of_le_of_lt (Nat.zero_le s) hs
  have hdm : (b * (seq * emb) + s * emb + i) / emb = b * seq + s := by
    rw [show b * (seq * emb) + s * emb + i = i + emb * (b * seq + s) from by ring,
      Nat.add_mul_div_left _ _ hemb, Nat.div_eq_of_lt hi, zero_add]
  refine ⟨?_, hdm, ?_, ?_⟩
  · have hlt : s * emb + i < seq * emb := by
      calc s * emb + i < s * emb + emb := by omega
        _ = (s + 1) * emb := by ring
        _ ≤ seq * emb := Nat.mul_le_mul_right _ (by omega)
    rw [show b * (seq * emb) + s * emb + i = (s * emb + i) + (seq * emb) * b from by ring,
      Nat.add_mul_div_left _ _ (Nat.mul_pos hseq0 hemb), Nat.div_eq_of_lt hlt, zero_add]
  · rw [hdm, show b * seq + s = s + seq * b from by ring,
      Nat.add_mul_mod_self_left, Nat.mod_eq_of_lt hs]
  · rw [show b * (seq * emb) + s * emb + i = i + emb * (b * seq + s) from by ring,
      Nat.add_mul_mod_self_left, Nat.mod_eq_of_lt hi]

/-- Reading a transferred element back out of a strided 2D copy. -/
theorem dmaStart2d_get {F : Type} (dst src : ℕ → F)
    (dstBase srcBase chunk dstStride srcStride reps r off : ℕ)
    (hr : r < reps) (hoff : off < chunk) (hcs : chunk ≤ dstStride) :
    dmaStart2d dst src dstBase srcBase chunk dstStride srcStride reps
        (dstBase + r * dstStride + off) =
      src (srcBase + r * srcStride + off) := by
  have hds : 0 < dstStride := lt_of_lt_of_le (lt_of_le_of_lt (Nat.zero_le _) hoff) hcs
  have hsub : dstBase + r * dstStride + off - dstBase = r * dstStride + off := by omega
  have hdiv : (r * dstStride + off) / dstStride = r := by
    rw [show r * dstStride + off = off + dstStride * r from by ring,
      Nat.add_mul_div_left _ _ hds, Nat.div_eq_of_lt (lt_of_lt_of_le hoff hcs), zero_add]
  have hmod : (r * dstStride + off) % dstStride = off := by
    rw [show r * dstStride + off = off + dstStride * r from by ring,
      Nat.add_mul_mod_self_left, Nat.mod_eq_of_lt (lt_of_lt_of_le hoff hcs)]
  unfold dmaStart2d
  rw [if_pos]
  · rw [hsub, hdiv, hmod]
  · refine ⟨by omega, ?_, ?_, hds⟩
    · rw [hsub, hdiv]; exact hr
    · rw [hsub, hmod]; exact hoff

/-- A strided 2D copy leaves addresses outside its destination region
unchanged. -/
theorem dmaStart2d_miss {F : Type} (dst src : ℕ → F)
    (dstBase srcBase chunk dstStride srcStride reps a : ℕ)
    (h : ¬(dstBase ≤ a ∧ (a - dstBase) / dstStride < reps ∧
      (a - dstBase) % dstStride < chunk ∧ 0 < dstStride)) :
    dmaStart2d dst src dstBase srcBase chunk dstStride srcStride reps a = dst a :=
  if_neg h

/-- Applying the scalar FP32 kernel at the decomposed tile address
`b * (tsl * emb) + row * emb + i`. -/
theorem layernorm_fp32_naive_apply {F : Type} [LinearOrderedField F]
    (sqrtF : F → F) (ci nc batch tsl emb : ℕ) (eps : ℤ) (input out : ℕ → F)
    (b row i : ℕ) (hrow : row < tsl) (hi : i < emb) :
    layernorm_fp32_naive sqrtF ci nc batch tsl emb eps input out
        (b * (tsl * emb) + row * emb + i) =
      if b < batch ∧ row % nc = ci ∧ row / nc < tsl / nc then
        lnRowValue sqrtF tsl emb eps input b row i
      else out (b * (tsl * emb) + row * emb + i) := by
  have hemb : 0 < emb := lt_of_le_of_lt (Nat.zero_le i) hi
  obtain ⟨hd1, hd2, hd3, hd4⟩ := flat3_decomp tsl emb b row i hrow hi
  have hb : (b * (tsl * emb) + row * emb + i) / emb / tsl = b := by
    rw [hd2, show b * tsl + row = row + tsl * b from by ring,
      Nat.add_mul_div_left _ _ (lt_of_le_of_lt (Nat.zero_le row) hrow),
      Nat.div_eq_of_lt hrow, zero_add]
  simp only [layernorm_fp32_naive, lnRowValue, hd3, hd4, hb]
  by_cases hc : b < batch ∧ row % nc = ci ∧ row / nc < tsl / nc
  · rw [if_pos ⟨hc.1, hc.2.1, hc.2.2, hemb, hi⟩, if_pos hc]
  · rw [if_neg fun h => hc ⟨h.1, h.2.1, h.2.2.1⟩, if_neg hc]

/-- The interleaved per-core row distribution: after all `num_cores` compute
cores have run the scalar FP32 kernel (modelled as a fold over the core
indices), the tile address `b * (tsl * emb) + row * emb + i` holds the
normalized value exactly when its row is within the covered range. -/
theorem lnNaiveFold_apply {F : Type} [LinearOrderedField F] (sqrtF : F → F)
    (nc batch tsl emb : ℕ) (eps : ℤ) (itile : ℕ → F) (b row i : ℕ)
    (hrow : row < tsl) (hi : i < emb) :
    ∀ (n : ℕ) (otile : ℕ → F),
      ((List.range n).foldl
          (fun out c => layernorm_fp32_naive sqrtF c nc batch tsl emb eps itile out)
          otile) (b * (tsl * emb) + row * emb + i) =
        if b < batch ∧ row % nc < n ∧ row / nc < tsl / nc then
          lnRowValue sqrtF tsl emb eps itile b row i
        else otile (b * (tsl * emb) + row * emb + i) := by
  intro n
  induction n with
  | zero => intro otile; simp
  | succ m ih =>
    intro otile
    rw [List.range_succ, List.foldl_append, List.foldl_cons, List.foldl_nil,
      layernorm_fp32_naive_apply sqrtF m nc batch tsl emb eps itile _ b row i hrow hi,
      ih otile]
    by_cases hb : b < batch
    · by_cases hdiv : row / nc < tsl / nc
      · by_cases hm : row % nc = m
        · rw [if_pos ⟨hb, hm, hdiv⟩, if_pos ⟨hb, by omega, hdiv⟩]
        · by_cases hlt : row % nc < m
          · rw [if_neg fun h => hm h.2.1, if_pos ⟨hb, hlt, hdiv⟩, if_pos ⟨hb, by omega, hdiv⟩]
          · rw [if_neg fun h => hm h.2.1, if_neg fun h => hlt h.2.1,
              if_neg fun h => (by omega : ¬(row % nc < m + 1)) h.2.1]
      · rw [if_neg fun h => hdiv h.2.2, if_neg fun h => hdiv h.2.2, if_neg fun h => hdiv h.2.2]
    · rw [if_neg fun h => hb h.1, if_neg fun h => hb h.1, if_neg fun h => hb h.1]

/-- The tile regions written back by the output DMA transfers cover exactly
the flat index range of the feature map: with `nt * chunk = S` (the tiles
partition each batch row-block), an address is of the form
`t * chunk + b * S + off` with `t < nt`, `b < batch`, `off < chunk` exactly
when it is below `batch * S`. -/
theorem region_cover_iff (batch S chunk nt : ℕ) (hS : nt * chunk = S) (a : ℕ) :
    (∃ t, t < nt ∧ ∃ b, b < batch ∧ ∃ off, off < chunk ∧
        a = t * chunk + b * S + off) ↔ a < batch * S := by
  constructor
  · rintro ⟨t, ht, b, hb, off, hoff, rfl⟩
    have h1 : t * chunk + off < S := by
      calc t * chunk + off < t * chunk + chunk := by omega
        _ = (t + 1) * chunk := by ring
        _ ≤ nt * chunk := Nat.mul_le_mul_right _ (by omega)
        _ = S := hS
    calc t * chunk + b * S + off = b * S + (t * chunk + off) := by ring
      _ < b * S + S := by omega
      _ = (b + 1) * S := by ring
      _ ≤ batch * S := Nat.mul_le_mul_right _ (by omega)
  · intro ha
    have hbs : 0 < batch * S := lt_of_le_of_lt (Nat.zero_le a) ha
    have hS0 : 0 < S := by
      rcases Nat.eq_zero_or_pos S with h | h
      · rw [h, Nat.mul_zero] at hbs; omega
      · exact h
    have hchunk : 0 < chunk := by
      rcases Nat.eq_zero_or_pos chunk with h | h
      · rw [h, Nat.mul_zero] at hS; omega
      · exact h
    refine ⟨a % S / chunk, ?_, a / S, ?_, a % S % chunk, Nat.mod_lt _ hchunk, ?_⟩
    · have hm : a % S < nt * chunk := by rw [hS]; exact Nat.mod_lt _ hS0
      exact (Nat.div_lt_iff_lt_mul hchunk).mpr (by omega)
    · exact (Nat.div_lt_iff_lt_mul hS0).mpr ha
    · calc a = S * (a / S) + a % S := (Nat.div_add_mod a S).symm
        _ = S * (a / S) + (chunk * (a % S / chunk) + a % S % chunk) := by
            rw [Nat.div_add_mod (a % S) chunk, Nat.div_add_mod]
        _ = a % S / chunk * chunk + a / S * S + a % S % chunk := by ring

/-- Effect of one tile iteration on the output feature map, for the baseline
(scalar) dispatch with full row coverage: tile `t` writes its region with the
per-row normalized values of `ifmap` and leaves everything else unchanged. -/
theorem lnTileStep_ofmap {F : Type} [LinearOrderedField F] (sqrtF : F → F)
    (num_cores : ℕ) (l : layernorm_layer_t) (ifmap : ℕ → F)
    (hbase : l.baseline = 1) (hncore : 0 < num_cores)
    (hcore : num_cores ∣ l.seq_len / l.n_tiles) (hseq : l.n_tiles ∣ l.seq_len)
    (t : ℕ) (ht : t < l.n_tiles) (ofm itile otile : ℕ → F) (a : ℕ) :
    (lnTileStep sqrtF num_cores l ifmap t (ofm, itile, otile)).1 a =
      if ∃ b, b < l.batch_size ∧ ∃ off, off < l.seq_len / l.n_tiles * l.embeddings ∧
          a = t * (l.seq_len / l.n_tiles * l.embeddings) +
            b * (l.seq_len * l.embeddings) + off then
        lnRowValue sqrtF l.seq_len l.embeddings (truncToInt l.eps) ifmap
          (a / (l.seq_len * l.embeddings)) (a / l.embeddings % l.seq_len)
          (a % l.embeddings)
      else ofm a := by
  set batch := l.batch_size with hbatch
  set seq := l.seq_len with hseqd
  set emb := l.embeddings with hembd
  set nt := l.n_tiles with hnt
  set tsl := seq / nt with htsl
  set chunk := tsl * emb with hchunk
  set S := seq * emb with hSd
  have hchunk_le : chunk ≤ S := by
    rw [hchunk, hSd]
    exact Nat.mul_le_mul_right _ (Nat.div_le_self seq nt)
  by_cases hcov : ∃ b, b < batch ∧ ∃ off, off < chunk ∧ a = t * chunk + b * S + off
  · obtain ⟨b, hb, off, hoff, rfl⟩ := hcov
    rw [if_pos ⟨b, hb, off, hoff, rfl⟩]
    have hemb : 0 < emb := by
      rcases Nat.eq_zero_or_pos emb with h | h
      · rw [hchunk, h, Nat.mul_zero] at hoff; omega
      · exact h
    have htsl0 : 0 < tsl := by
      rcases Nat.eq_zero_or_pos tsl with h | h
      · rw [hchunk, h, Nat.zero_mul] at hoff; omega
      · exact h
    set row := off / emb with hrowd
    set i := off % emb with hid
    have hrowlt : row < tsl := by
      rw [hrowd]
      exact (Nat.div_lt_iff_lt_mul hemb).mpr (by rw [hchunk] at hoff; omega)
    have hilt : i < emb := Nat.mod_lt _ hemb
    have hioff : off = row * emb + i := by
      rw [hrowd, hid]
      calc off = emb * (off / emb) + off % emb := (Nat.div_add_mod off emb).symm
        _ = off / emb * emb + off % emb := by ring
    have hglob : t * chunk + b * S + off =
        b * (seq * emb) + (t * tsl + row) * emb + i := by
      rw [hioff, hchunk, hSd]; ring
    have hglobrow : t * tsl + row < seq := by
      have hmul : nt * tsl = seq := Nat.mul_div_cancel' hseq
      calc t * tsl + row < t * tsl + tsl := by omega
        _ = (t + 1) * tsl := by ring
        _ ≤ nt * tsl := Nat.mul_le_mul_right _ (by omega)
        _ = seq := hmul
    -- the three dma/compute layers
    simp only [lnTileStep, ← hseqd, ← hembd, ← hnt, ← htsl, ← hchunk, ← hSd, ← hbatch]
    rw [dmaStart2d_get _ _ _ _ _ _ _ _ b off hb hoff hchunk_le, zero_add]
    simp only [lnTileCompute, hbase, if_pos, ← hembd, ← hbatch, ← htsl]
    rw [show b * chunk + off = b * (tsl * emb) + row * emb + i from by
      rw [hioff, hchunk]; ring]
    rw [lnNaiveFold_apply sqrtF num_cores batch tsl emb (truncToInt l.eps) _ b row i
      hrowlt hilt num_cores _]
    rw [if_pos ⟨hb, Nat.mod_lt _ hncore, Nat.div_lt_div_of_lt_of_dvd hcore hrowlt⟩]
    -- index arithmetic on the right-hand side
    obtain ⟨hg1, _, hg3, hg4⟩ :=
      flat3_decomp seq emb b (t * tsl + row) i hglobrow hilt
    rw [hglob, hg1, hg3, hg4]
    -- the input tile holds the corresponding rows of ifmap
    have hit : ∀ j, j < emb →
        dmaStart2d itile ifmap 0 (t * chunk) chunk chunk S batch
            (b * (tsl * emb) + row * emb + j) =
          ifmap (b * (seq * emb) + (t * tsl + row) * emb + j) := by
      intro j hj
      have hoffj : row * emb + j < chunk := by
        rw [hchunk]
        calc row * emb + j < row * emb + emb := by omega
          _ = (row + 1) * emb := by ring
          _ ≤ tsl * emb := Nat.mul_le_mul_right _ (by omega)
      have haddr : b * (tsl * emb) + row * emb + j =
          0 + b * chunk + (row * emb + j) := by rw [hchunk]; ring
      rw [haddr, dmaStart2d_get itile ifmap 0 (t * chunk) chunk chunk S batch b
        (row * emb + j) hb hoffj (le_refl chunk)]
      congr 1
      rw [hchunk, hSd]; ring
    simp only [lnRowValue]
    rw [show (∑ j ∈ Finset.range emb,
        dmaStart2d itile ifmap 0 (t * chunk) chunk chunk S batch
          (b * (tsl * emb) + row * emb + j)) =
        ∑ j ∈ Finset.range emb, ifmap (b * (seq * emb) + (t * tsl + row) * emb + j) from
      Finset.sum_congr rfl fun j hj => hit j (Finset.mem_range.mp hj)]
    rw [show (∑ j ∈ Finset.range emb,
        (dmaStart2d itile ifmap 0 (t * chunk) chunk chunk S batch
            (b * (tsl * emb) + row * emb + j) -
          (∑ j ∈ Finset.range emb,
            ifmap (b * (seq * emb) + (t * tsl + row) * emb + j)) / (emb : F)) *
        (dmaStart2d itile ifmap 0 (t * chunk) chunk chunk S batch
            (b * (tsl * emb) + row * emb + j) -
          (∑ j ∈ Finset.range emb,
            ifmap (b * (seq * emb) + (t * tsl + row) * emb + j)) / (emb : F))) =
        ∑ j ∈ Finset.range emb,
        (ifmap (b * (seq * emb) + (t * tsl + row) * emb + j) -
          (∑ j ∈ Finset.range emb,
            ifmap (b * (seq * emb) + (t * tsl + row) * emb + j)) / (emb : F)) *
        (ifmap (b * (seq * emb) + (t * tsl + row) * emb + j) -
          (∑ j ∈ Finset.range emb,
            ifmap (b * (seq * emb) + (t * tsl + row) * emb + j)) / (emb : F)) from
      Finset.sum_congr rfl fun j hj => by rw [hit j (Finset.mem_range.mp hj)]]
    rw [hit i hilt]
  · rw [if_neg hcov]
    simp only [lnTileStep, ← hseqd, ← hembd, ← hnt, ← htsl, ← hchunk, ← hSd, ← hbatch]
    rw [dmaStart2d_miss]
    rintro ⟨hle, hdiv, hmod, hpos⟩
    refine hcov ⟨(a - t * chunk) / S, hdiv, (a - t * chunk) % S, hmod, ?_⟩
    have hdm : S * ((a - t * chunk) / S) + (a - t * chunk) % S = a - t * chunk :=
      Nat.div_add_mod _ _
    calc a = t * chunk + (a - t * chunk) := by omega
      _ = t * chunk + (S * ((a - t * chunk) / S) + (a - t * chunk) % S) := by
          rw [hdm]
      _ = t * chunk + (a - t * chunk) / S * S + (a - t * chunk) % S := by ring

/-- Folding `lnTileStep` over a contiguous range of tile indices writes exactly
the union of the tile regions (relative to the starting output map). -/
theorem lnTileFold_ofmap {F : Type} [LinearOrderedField F] (sqrtF : F → F)
    (num_cores : ℕ) (l : layernorm_layer_t) (ifmap : ℕ → F)
    (hbase : l.baseline = 1) (hncore : 0 < num_cores)
    (hcore : num_cores ∣ l.seq_len / l.n_tiles) (hseq : l.n_tiles ∣ l.seq_len)
    (base : ℕ) :
    ∀ (n : ℕ), base + n ≤ l.n_tiles → ∀ (ofm it ot : ℕ → F) (a : ℕ),
      (((List.range n).foldl
          (fun st ct => lnTileStep sqrtF num_cores l ifmap (base + ct) st)
          (ofm, it, ot)).1) a =
        if ∃ j, j < n ∧ ∃ b, b < l.batch_size ∧
            ∃ off, off < l.seq_len / l.n_tiles * l.embeddings ∧
            a = (base + j) * (l.seq_len / l.n_tiles * l.embeddings) +
              b * (l.seq_len * l.embeddings) + off then
          lnRowValue sqrtF l.seq_len l.embeddings (truncToInt l.eps) ifmap
            (a / (l.seq_len * l.embeddings)) (a / l.embeddings % l.seq_len)
            (a % l.embeddings)
        else ofm a := by
  intro n
  induction n with
  | zero =>
    intro _ ofm it ot a
    rw [if_neg]
    · rfl
    · rintro ⟨j, hj, _⟩; omega
  | succ m ih =>
    intro hle ofm it ot a
    rw [List.range_succ, List.foldl_append, List.foldl_cons, List.foldl_nil]
    set R := (List.range m).foldl
      (fun st ct => lnTileStep sqrtF num_cores l ifmap (base + ct) st)
      (ofm, it, ot) with hR
    have hRsplit : R = (R.1, R.2.1, R.2.2) := rfl
    rw [hRsplit, lnTileStep_ofmap sqrtF num_cores l ifmap hbase hncore hcore hseq
      (base + m) (by omega) R.1 R.2.1 R.2.2 a]
    by_cases h1 : ∃ b, b < l.batch_size ∧
        ∃ off, off < l.seq_len / l.n_tiles * l.embeddings ∧
        a = (base + m) * (l.seq_len / l.n_tiles * l.embeddings) +
          b * (l.seq_len * l.embeddings) + off
    · rw [if_pos h1, if_pos ⟨m, by omega, h1⟩]
    · rw [if_neg h1, ih (by omega) ofm it ot a]
      have hiff : (∃ j, j < m ∧ ∃ b, b < l.batch_size ∧
          ∃ off, off < l.seq_len / l.n_tiles * l.embeddings ∧
          a = (base + j) * (l.seq_len / l.n_tiles * l.embeddings) +
            b * (l.seq_len * l.embeddings) + off) ↔
          (∃ j, j < m + 1 ∧ ∃ b, b < l.batch_size ∧
          ∃ off, off < l.seq_len / l.n_tiles * l.embeddings ∧
          a = (base + j) * (l.seq_len / l.n_tiles * l.embeddings) +
            b * (l.seq_len * l.embeddings) + off) := by
        constructor
        · rintro ⟨j, hj, hrest⟩
          exact ⟨j, by omega, hrest⟩
        · rintro ⟨j, hj, hrest⟩
          rcases Nat.lt_succ_iff_lt_or_eq.mp hj with h | h
          · exact ⟨j, h, hrest⟩
          · subst h; exact absurd hrest h1
      rw [if_congr hiff.symm rfl rfl]

/-- Closed form of the whole `layernorm_layer` on the baseline (scalar) path
under the divisibility preconditions: every feature-map entry is row-normalized
(with the truncated eps) and everything outside the feature map is untouched. -/
theorem layernorm_layer_closed {F : Type} [LinearOrderedField F] (sqrtF : F → F)
    (num_clusters num_cores : ℕ) (l : layernorm_layer_t)
    (ifmap ofmap scratchI scratchO : ℕ → F) (hbase : l.baseline = 1)
    (hncore : 0 < num_cores) (hcdvd : num_clusters ∣ l.n_tiles)
    (hseq : l.n_tiles ∣ l.seq_len) (hcore : num_cores ∣ l.seq_len / l.n_tiles)
    (a : ℕ) :
    layernorm_layer sqrtF num_clusters num_cores l ifmap ofmap scratchI scratchO a =
      if a < l.batch_size * (l.seq_len * l.embeddings) then
        lnRowValue sqrtF l.seq_len l.embeddings (truncToInt l.eps) ifmap
          (a / (l.seq_len * l.embeddings)) (a / l.embeddings % l.seq_len)
          (a % l.embeddings)
      else ofmap a := by
  have houter : ∀ (m : ℕ), m ≤ num_clusters → ∀ (a : ℕ),
      ((List.range m).foldl
        (fun ofm cl =>
          ((List.range (l.n_tiles / num_clusters)).foldl
            (fun st ct =>
              lnTileStep sqrtF num_cores l ifmap
                (cl * (l.n_tiles / num_clusters) + ct) st)
            (ofm, scratchI, scratchO)).1)
        ofmap) a =
      if ∃ t, t < m * (l.n_tiles / num_clusters) ∧ ∃ b, b < l.batch_size ∧
          ∃ off, off < l.seq_len / l.n_tiles * l.embeddings ∧
          a = t * (l.seq_len / l.n_tiles * l.embeddings) +
            b * (l.seq_len * l.embeddings) + off then
        lnRowValue sqrtF l.seq_len l.embeddings (truncToInt l.eps) ifmap
          (a / (l.seq_len * l.embeddings)) (a / l.embeddings % l.seq_len)
          (a % l.embeddings)
      else ofmap a := by
    intro m
    induction m with
    | zero =>
      intro _ a
      rw [if_neg]
      · rfl
      · rintro ⟨t, ht, _⟩; omega
    | succ k ih =>
      intro hk a
      rw [List.range_succ, List.foldl_append, List.foldl_cons, List.foldl_nil]
      have hbound : k * (l.n_tiles / num_clusters) + l.n_tiles / num_clusters ≤
          l.n_tiles := by
        have h1 : (k + 1) * (l.n_tiles / num_clusters) ≤
            num_clusters * (l.n_tiles / num_clusters) :=
          Nat.mul_le_mul_right _ (by omega)
        have h2 : num_clusters * (l.n_tiles / num_clusters) = l.n_tiles :=
          Nat.mul_div_cancel' hcdvd
        calc k * (l.n_tiles / num_clusters) + l.n_tiles / num_clusters
            = (k + 1) * (l.n_tiles / num_clusters) := by ring
          _ ≤ num_clusters * (l.n_tiles / num_clusters) := h1
          _ = l.n_tiles := h2
      rw [lnTileFold_ofmap sqrtF num_cores l ifmap hbase hncore hcore hseq
        (k * (l.n_tiles / num_clusters)) (l.n_tiles / num_clusters) hbound _
        scratchI scratchO a]
      by_cases h1 : ∃ j, j < l.n_tiles / num_clusters ∧ ∃ b, b < l.batch_size ∧
          ∃ off, off < l.seq_len / l.n_tiles * l.embeddings ∧
          a = (k * (l.n_tiles / num_clusters) + j) *
            (l.seq_len / l.n_tiles * l.embeddings) +
            b * (l.seq_len * l.embeddings) + off
      · obtain ⟨j, hj, hrest⟩ := h1
        rw [if_pos ⟨j, hj, hrest⟩,
          if_pos ⟨k * (l.n_tiles / num_clusters) + j, by
            constructor
            · have : (k + 1) * (l.n_tiles / num_clusters) =
                k * (l.n_tiles / num_clusters) + l.n_tiles / num_clusters := by ring
              omega
            · exact hrest⟩]
      · rw [if_neg h1, ih (by omega) a]
        have hiff : (∃ t, t < k * (l.n_tiles / num_clusters) ∧
            ∃ b, b < l.batch_size ∧
            ∃ off, off < l.seq_len / l.n_tiles * l.embeddings ∧
            a = t * (l.seq_len / l.n_tiles * l.embeddings) +
              b * (l.seq_len * l.embeddings) + off) ↔
            (∃ t, t < (k + 1) * (l.n_tiles / num_clusters) ∧
            ∃ b, b < l.batch_size ∧
            ∃ off, off < l.seq_len / l.n_tiles * l.embeddings ∧
            a = t * (l.seq_len / l.n_tiles * l.embeddings) +
              b * (l.seq_len * l.embeddings) + off) := by
          constructor
          · rintro ⟨t, ht, hrest⟩
            refine ⟨t, ?_, hrest⟩
            have : k * (l.n_tiles / num_clusters) ≤
                (k + 1) * (l.n_tiles / num_clusters) :=
              Nat.mul_le_mul_right _ (by omega)
            omega
          · rintro ⟨t, ht, hrest⟩
            refine ⟨t, ?_, hrest⟩
            by_contra hnot
            push_neg at hnot
            have hsplit : (k + 1) * (l.n_tiles / num_clusters) =
                k * (l.n_tiles / num_clusters) + l.n_tiles / num_clusters := by
              ring
            refine h1 ⟨t - k * (l.n_tiles / num_clusters), by omega, ?_⟩
            have ht2 : k * (l.n_tiles / num_clusters) +
                (t - k * (l.n_tiles / num_clusters)) = t := by omega
            rw [ht2]
            exact hrest
        rw [if_congr hiff.symm rfl rfl]
  simp only [layernorm_layer]
  rw [houter num_clusters (le_refl _) a]
  have hnteq : num_clusters * (l.n_tiles / num_clusters) = l.n_tiles :=
    Nat.mul_div_cancel' hcdvd
  have hS : l.n_tiles * (l.seq_len / l.n_tiles * l.embeddings) =
      l.seq_len * l.embeddings := by
    rw [← Nat.mul_assoc, Nat.mul_div_cancel' hseq]
  rw [if_congr (Iff.trans (by rw [hnteq]) (region_cover_iff l.batch_size
    (l.seq_len * l.embeddings) (l.seq_len / l.n_tiles * l.embeddings)
    l.n_tiles hS a)) rfl rfl]

/-- Mean of a feature-map row starting at flat address `rowBase`. -/
def lnRowMean {F : Type} [LinearOrderedField F] (emb : ℕ) (x : ℕ → F)
    (rowBase : ℕ) : F :=
  (∑ j ∈ Finset.range emb, x (rowBase + j)) / (emb : F)

/-- Variance of a feature-map row starting at flat address `rowBase`. -/
def lnRowVar {F : Type} [LinearOrderedField F] (emb : ℕ) (x : ℕ → F)
    (rowBase : ℕ) : F :=
  (∑ j ∈ Finset.range emb,
    (x (rowBase + j) - lnRowMean emb x rowBase) *
      (x (rowBase + j) - lnRowMean emb x rowBase)) / (emb : F)

/-- `lnRowValue` through `lnRowMean`/`lnRowVar`. -/
theorem lnRowValue_eq {F : Type} [LinearOrderedField F] (sqrtF : F → F)
    (seq emb : ℕ) (eps : ℤ) (x : ℕ → F) (b s i : ℕ) :
    lnRowValue sqrtF seq emb eps x b s i =
      (x (b * (seq * emb) + s * emb + i) -
          lnRowMean emb x (b * (seq * emb) + s * emb)) /
        sqrtF (lnRowVar emb x (b * (seq * emb) + s * emb) + (eps : F)) := rfl

/-- C3 (amended): on the baseline path, for every row `(b, s)` of the input
feature map and every column `i`, `layernorm_layer` writes
`(x - mean) / sqrt(variance + eps_t)` where `eps_t` is the configuration's
float `eps` TRUNCATED to `int32_t` by the kernel parameter declaration; as a
consequence the output row sums (hence means) to exactly 0, its variance is
`var / (var + eps_t)`, and the variance is exactly 1 whenever the truncated
eps is 0 (e.g. any configured `eps` in `[0, 1)`) and the row variance is
positive. -/
theorem C3_layernorm_row_normalization {F : Type} [LinearOrderedField F]
    (sqrtF : F → F) (num_clusters num_cores : ℕ) (l : layernorm_layer_t)
    (ifmap ofmap scratchI scratchO : ℕ → F)
    (hsq : ∀ x : F, 0 ≤ x → sqrtF x * sqrtF x = x)
    (hbase : l.baseline = 1) (hncore : 0 < num_cores)
    (hcdvd : num_clusters ∣ l.n_tiles) (hseq : l.n_tiles ∣ l.seq_len)
    (hcore : num_cores ∣ l.seq_len / l.n_tiles) (b s i : ℕ)
    (hb : b < l.batch_size) (hs : s < l.seq_len) (hi : i < l.embeddings) :
    (layernorm_layer sqrtF num_clusters num_cores l ifmap ofmap scratchI scratchO
        (b * (l.seq_len * l.embeddings) + s * l.embeddings + i) =
      lnRowValue sqrtF l.seq_len l.embeddings (truncToInt l.eps) ifmap b s i) ∧
    ((∑ j ∈ Finset.range l.embeddings,
        layernorm_layer sqrtF num_clusters num_cores l ifmap ofmap scratchI
          scratchO (b * (l.seq_len * l.embeddings) + s * l.embeddings + j)) /
        (l.embeddings : F) = 0) ∧
    (0 < lnRowVar l.embeddings ifmap
          (b * (l.seq_len * l.embeddings) + s * l.embeddings) +
        ((truncToInt l.eps : ℤ) : F) →
      (∑ j ∈ Finset.range l.embeddings,
          layernorm_layer sqrtF num_clusters num_cores l ifmap ofmap scratchI
              scratchO (b * (l.seq_len * l.embeddings) + s * l.embeddings + j) *
            layernorm_layer sqrtF num_clusters num_cores l ifmap ofmap scratchI
              scratchO (b * (l.seq_len * l.embeddings) + s * l.embeddings + j)) /
          (l.embeddings : F) =
        lnRowVar l.embeddings ifmap
            (b * (l.seq_len * l.embeddings) + s * l.embeddings) /
          (lnRowVar l.embeddings ifmap
              (b * (l.seq_len * l.embeddings) + s * l.embeddings) +
            ((truncToInt l.eps : ℤ) : F))) ∧
    (truncToInt l.eps = 0 →
      0 < lnRowVar l.embeddings ifmap
          (b * (l.seq_len * l.embeddings) + s * l.embeddings) →
      (∑ j ∈ Finset.range l.embeddings,
          layernorm_layer sqrtF num_clusters num_cores l ifmap ofmap scratchI
              scratchO (b * (l.seq_len * l.embeddings) + s * l.embeddings + j) *
            layernorm_layer sqrtF num_clusters num_cores l ifmap ofmap scratchI
              scratchO (b * (l.seq_len * l.embeddings) + s * l.embeddings + j)) /
          (l.embeddings : F) = 1) := by
  have hemb : 0 < l.embeddings := lt_of_le_of_lt (Nat.zero_le i) hi
  have hembF : ((l.embeddings : ℕ) : F) ≠ 0 := by
    exact_mod_cast Nat.pos_iff_ne_zero.mp hemb
  have hclosed : ∀ j, j < l.embeddings →
      layernorm_layer sqrtF num_clusters num_cores l ifmap ofmap scratchI
          scratchO (b * (l.seq_len * l.embeddings) + s * l.embeddings + j) =
        lnRowValue sqrtF l.seq_len l.embeddings (truncToInt l.eps) ifmap b s j := by
    intro j hj
    rw [layernorm_layer_closed sqrtF num_clusters num_cores l ifmap ofmap
      scratchI scratchO hbase hncore hcdvd hseq hcore _]
    obtain ⟨hd1, _, hd3, hd4⟩ := flat3_decomp l.seq_len l.embeddings b s j hs hj
    have hin : b * (l.seq_len * l.embeddings) + s * l.embeddings + j <
        l.batch_size * (l.seq_len * l.embeddings) := by
      have hrow : s * l.embeddings + j < l.seq_len * l.embeddings := by
        calc s * l.embeddings + j < s * l.embeddings + l.embeddings := by omega
          _ = (s + 1) * l.embeddings := by ring
          _ ≤ l.seq_len * l.embeddings := Nat.mul_le_mul_right _ (by omega)
      calc b * (l.seq_len * l.embeddings) + s * l.embeddings + j
          = b * (l.seq_len * l.embeddings) + (s * l.embeddings + j) := by ring
        _ < b * (l.seq_len * l.embeddings) + l.seq_len * l.embeddings := by omega
        _ = (b + 1) * (l.seq_len * l.embeddings) := by ring
        _ ≤ l.batch_size * (l.seq_len * l.embeddings) :=
            Nat.mul_le_mul_right _ (by omega)
    rw [if_pos hin, hd1, hd3, hd4]
  set rowBase := b * (l.seq_len * l.embeddings) + s * l.embeddings with hrowBase
  set M := lnRowMean l.embeddings ifmap rowBase with hM
  set V := lnRowVar l.embeddings ifmap rowBase with hV
  set D := sqrtF (V + ((truncToInt l.eps : ℤ) : F)) with hD
  have hval : ∀ j, j < l.embeddings →
      layernorm_layer sqrtF num_clusters num_cores l ifmap ofmap scratchI
          scratchO (rowBase + j) = (ifmap (rowBase + j) - M) / D := by
    intro j hj
    rw [hclosed j hj, lnRowValue_eq, ← hrowBase, ← hM, ← hV, ← hD]
  have hsumx : ∑ j ∈ Finset.range l.embeddings, ifmap (rowBase + j) =
      ((l.embeddings : ℕ) : F) * M := by
    rw [hM, lnRowMean, mul_div_cancel₀ _ hembF]
  have hsumsq : ∑ j ∈ Finset.range l.embeddings,
      (ifmap (rowBase + j) - M) * (ifmap (rowBase + j) - M) =
      ((l.embeddings : ℕ) : F) * V := by
    rw [hV, lnRowVar, ← hM, mul_div_cancel₀ _ hembF]
  have hmean0 : (∑ j ∈ Finset.range l.embeddings,
      layernorm_layer sqrtF num_clusters num_cores l ifmap ofmap scratchI
        scratchO (rowBase + j)) / ((l.embeddings : ℕ) : F) = 0 := by
    rw [Finset.sum_congr rfl fun j hj => hval j (Finset.mem_range.mp hj),
      ← Finset.sum_div, Finset.sum_sub_distrib, hsumx, Finset.sum_const,
      Finset.card_range, nsmul_eq_mul, sub_self, zero_div, zero_div]
  have hvar : 0 < V + ((truncToInt l.eps : ℤ) : F) →
      (∑ j ∈ Finset.range l.embeddings,
        layernorm_layer sqrtF num_clusters num_cores l ifmap ofmap scratchI
            scratchO (rowBase + j) *
          layernorm_layer sqrtF num_clusters num_cores l ifmap ofmap scratchI
            scratchO (rowBase + j)) / ((l.embeddings : ℕ) : F) =
        V / (V + ((truncToInt l.eps : ℤ) : F)) := by
    intro hpos
    have hD2 : D * D = V + ((truncToInt l.eps : ℤ) : F) := hsq _ (le_of_lt hpos)
    rw [Finset.sum_congr rfl fun j hj => by
      rw [hval j (Finset.mem_range.mp hj), div_mul_div_comm]]
    rw [← Finset.sum_div, hsumsq, hD2, div_div, mul_comm
      (V + ((truncToInt l.eps : ℤ) : F)) ((l.embeddings : ℕ) : F),
      mul_div_mul_left _ _ hembF]
  refine ⟨hclosed i hi, hmean0, hvar, ?_⟩
  intro hz hvpos
  have h0 : ((truncToInt l.eps : ℤ) : F) = 0 := by rw [hz]; exact Int.cast_zero
  rw [hvar (by rw [h0, add_zero]; exact hvpos), h0, add_zero,
    div_self (ne_of_gt hvpos)]

/-- Witness for C3 at `F = ℝ`, `sqrtF = Real.sqrt`, on a 1x1x1 configuration. -/
theorem C3_layernorm_row_normalization_witness :
    layernorm_layer Real.sqrt 1 1 ⟨1, 1, 1, 1, 1, 0, Precision.FP32⟩
        (fun _ => 0) (fun _ => 0) (fun _ => 0) (fun _ => 0) 0 =
      lnRowValue Real.sqrt 1 1 (truncToInt 0) (fun _ => 0) 0 0 0 := by
  have h := C3_layernorm_row_normalization Real.sqrt 1 1
    ⟨1, 1, 1, 1, 1, 0, Precision.FP32⟩ (fun _ => 0) (fun _ => 0) (fun _ => 0)
    (fun _ => 0) (fun x hx => Real.mul_self_sqrt hx) rfl (by norm_num)
    ⟨1, rfl⟩ ⟨1, rfl⟩ ⟨1, rfl⟩ 0 0 0 (by norm_num) (by norm_num) (by norm_num)
  simpa using h.1

/-- Modelled from the spec: the per-row normalization formula exactly as claim
C3 states it, with the configuration record's float `eps` used directly (not
truncated to `int32_t`). -/
def lnRowValueSpec {F : Type} [LinearOrderedField F] (sqrtF : F → F)
    (seq emb : ℕ) (eps : ℚ) (x : ℕ → F) (b s i : ℕ) : F :=
  let rowBase := b * (seq * emb) + s * emb
  let mean := (∑ j ∈ Finset.range emb, x (rowBase + j)) / (emb : F)
  let var := (∑ j ∈ Finset.range emb,
    (x (rowBase + j) - mean) * (x (rowBase + j) - mean)) / (emb : F)
  (x (rowBase + i) - mean) / sqrtF (var + (eps : F))

/-- Input feature map of the C3 counterexample: the single row is `[0, 1]`. -/
def lnCexIfmap {F : Type} [LinearOrderedField F] : ℕ → F :=
  fun a => if a = 1 then 1 else 0

/-- C3 counterexample to the claim as stated: with the configuration eps
`1/2` (a legitimate float value), one batch, one row of two embeddings, the
kernel normalizes with the TRUNCATED eps `(int32_t) 0.5f = 0` — the output at
index 0 is `(0 - 1/2) / sqrt(1/4 + 0) = -2` (with the identity standing in
for `sqrtf` on the rational model; `sqrtf(1/4) = 1/4` is irrelevant to the
disagreement, which is in the argument of `sqrtf`) — while the formula of the
claim, with the configured eps value itself, gives
`(0 - 1/2) / (1/4 + 1/2) = -2/3`. -/
theorem C3_layernorm_eps_truncation_cex :
    layernorm_layer (F := ℚ) id 1 1 ⟨1, 1, 2, 1, 1, 1 / 2, Precision.FP32⟩
        lnCexIfmap (fun _ => 0) (fun _ => 0) (fun _ => 0) 0 ≠
      lnRowValueSpec (F := ℚ) id 1 2 (1 / 2) lnCexIfmap 0 0 0 := by
  norm_num [layernorm_layer, lnTileStep, lnTileCompute, layernorm_fp32_naive,
    dmaStart2d, truncToInt, lnRowValueSpec, lnCexIfmap, Finset.sum_range_succ,
    List.range_succ, List.range_zero, List.foldl_append, List.foldl_cons,
    List.foldl_nil]

/-- C8 (amended): on the baseline path, the sequence-axis tiling of
`layernorm_layer` is semantically invisible PROVIDED the compute-core count
divides each tile's sequence slice: for any two tile counts `k1`, `k2` that
are multiples of the cluster count, divide `seq_len`, and for which
`num_cores` divides `seq_len / k`, the two runs produce identical output
feature maps (on the whole address space). -/
theorem C8_layernorm_tiling_invariance {F : Type} [LinearOrderedField F]
    (sqrtF : F → F) (num_clusters num_cores : ℕ) (l : layernorm_layer_t)
    (k1 k2 : ℕ) (ifmap ofmap scratchI scratchO : ℕ → F)
    (hbase : l.baseline = 1) (hncore : 0 < num_cores)
    (h1c : num_clusters ∣ k1) (h2c : num_clusters ∣ k2)
    (h1s : k1 ∣ l.seq_len) (h2s : k2 ∣ l.seq_len)
    (h1core : num_cores ∣ l.seq_len / k1)
    (h2core : num_cores ∣ l.seq_len / k2) :
    layernorm_layer sqrtF num_clusters num_cores { l with n_tiles := k1 }
        ifmap ofmap scratchI scratchO =
      layernorm_layer sqrtF num_clusters num_cores { l with n_tiles := k2 }
        ifmap ofmap scratchI scratchO := by
  funext a
  rw [layernorm_layer_closed sqrtF num_clusters num_cores
      { l with n_tiles := k1 } ifmap ofmap scratchI scratchO hbase hncore h1c
      h1s h1core a,
    layernorm_layer_closed sqrtF num_clusters num_cores
      { l with n_tiles := k2 } ifmap ofmap scratchI scratchO hbase hncore h2c
      h2s h2core a]

/-- C8 counterexample to the claim as stated: with one cluster, TWO compute
cores, `batch = 1`, `seq_len = 2`, `embeddings = 1`, `eps = 1` and constant
input 3, splitting into `n_tiles = 2` (which divides `seq_len` and is a
multiple of the cluster count, as the claim requires) leaves each one-row tile
with `tile_seq_len / num_cores = 0` rows per core: nothing is computed, and
the TCDM output scratch (here initialized to 7) is copied back, while the
untiled run (`n_tiles = 1`) normalizes both rows to 0. -/
theorem C8_layernorm_tiling_cex :
    layernorm_layer (F := ℚ) id 1 2 ⟨1, 2, 1, 1, 1, 1, Precision.FP32⟩
        (fun _ => 3) (fun _ => 0) (fun _ => 0) (fun _ => 7) 0 ≠
      layernorm_layer (F := ℚ) id 1 2 ⟨1, 2, 1, 2, 1, 1, Precision.FP32⟩
        (fun _ => 3) (fun _ => 0) (fun _ => 0) (fun _ => 7) 0 := by
  norm_num [layernorm_layer, lnTileStep, lnTileCompute, layernorm_fp32_naive,
    dmaStart2d, truncToInt, Finset.sum_range_succ, List.range_succ,
    List.range_zero, List.foldl_append, List.foldl_cons, List.foldl_nil]

/-- Witness for the C8 invariance theorem: `seq_len = 2` with one core, one
cluster, comparing `n_tiles = 1` against `n_tiles = 2`. -/
theorem C8_layernorm_tiling_invariance_witness :
    layernorm_layer (F := ℚ) id 1 1 ⟨1, 2, 1, 1, 1, 0, Precision.FP32⟩
        (fun _ => 3) (fun _ => 0) (fun _ => 0) (fun _ => 7) =
      layernorm_layer (F := ℚ) id 1 1 ⟨1, 2, 1, 2, 1, 0, Precision.FP32⟩
        (fun _ => 3) (fun _ => 0) (fun _ => 0) (fun _ => 7) :=
  C8_layernorm_tiling_invariance id 1 1 ⟨1, 2, 1, 0, 1, 0, Precision.FP32⟩ 1 2
    (fun _ => 3) (fun _ => 0) (fun _ => 0) (fun _ => 7) rfl (by decide)
    (by decide) (by decide) (by decide) (by decide) (by decide) (by decide)
